import Mathlib

/-!
# Verification of the brainrotgenerator orchestration core

Shallow embedding of the repository's Python sources:

* `asmLoop`, `createDistractionVideo` embed the selection loop and the
  engine/cleanup tail of `create_distraction_video` (src/distraction.py).
  The subprocess outcome of the concat invocation is a Boolean parameter
  (`engineOk`), `random.choice` is an index oracle `choice : Nat -> Nat`,
  and the unbounded `while` loop is given explicit fuel: running out of
  fuel maps to `diverge` (the Python loop not returning).  The mutable
  `exclude_list` argument is threaded through the loop and returned, so
  that frame properties about it are statable.
* `variant1Fx` embeds the file effects and exception flow of
  `Variants.variant1` (src/variants.py) over the same assembler model.
* `runSched` embeds the semaphore discipline of the engine invocation
  sites (src/variants.py `run_ffmpeg_command`, src/distraction.py
  concat call, src/music.py `add_music_to_video`) as action scripts.
* `deleteFileWithRetry` embeds `Variants.delete_file_with_retry`.
* `addRandomMusicToResults` embeds src/music.py.
-/

namespace BRG

variable {α : Type} [DecidableEq α]

/- Probed durations are decimal seconds; the code only adds them and
compares them, so the embedding is generic in a linearly ordered
additive commutative monoid of durations. -/
variable {δ : Type} [LinearOrderedAddCommMonoid δ]

/-- Sum of probed durations over a clip list. -/
def sumDur (dur : α → δ) : List α → δ
  | [] => 0
  | v :: rest => dur v + sumDur dur rest

/-- `random.choice(l)` for nonempty `l`, driven by an index oracle value. -/
def pick (l : List α) (n : ℕ) (h : l ≠ []) : α :=
  l.get ⟨n % l.length, Nat.mod_lt n (List.length_pos.mpr h)⟩

/-- State returned by the selection loop of `create_distraction_video`:
`used` is `used_videos`, `fl` the clips of the `file_list` manifest lines
in order, `total` is `total_duration`, `excl` the contents of the
`exclude_list` object when the loop ends. -/
structure LoopOut (α δ : Type) where
  used : List α
  fl : List α
  total : δ
  excl : List α
  deriving DecidableEq

/-- Loop result: `out` when the `while` loop finishes, `diverge` when the
fuel runs out (the Python loop would not have returned yet). -/
inductive LoopRes (α δ : Type) where
  | out (o : LoopOut α δ)
  | diverge (excl : List α)
  deriving DecidableEq

/-- The `exclude_list` contents carried by a loop result. -/
def LoopRes.exclOf : LoopRes α δ → List α
  | .out o => o.excl
  | .diverge e => e

/-- `available_videos = [v for v in videos if v not in used_videos and v not
in exclude_list]` (src/distraction.py line 26). -/
def availableVideos (videos used excl : List α) : List α :=
  videos.filter (fun v => decide (v ∉ used ∧ v ∉ excl))

/-- The candidate list after the pool-exhaustion reset
(src/distraction.py line 31): `[v for v in videos if v != last_used and v
not in exclude_list]`, where `last_used` may be `None`. -/
def resetVideos (videos : List α) (last : Option α) (excl : List α) : List α :=
  videos.filter (fun v => decide (some v ≠ last ∧ v ∉ excl))

/-- The selection `while` loop of `create_distraction_video`
(src/distraction.py lines 25-41), one fuel unit per iteration.
`k` indexes the oracle feeding `random.choice`. -/
def asmLoop (dur : α → δ) (duration : δ) (videos : List α) (choice : ℕ → ℕ) :
    ℕ → ℕ → List α → δ → List α → List α → LoopRes α δ
  | 0, _, _, _, _, excl => .diverge excl
  | fuel + 1, k, used, total, fl, excl =>
    if duration ≤ total then .out ⟨used, fl, total, excl⟩
    else
      if h : availableVideos videos used excl = [] then
        -- reset: last_used = used_videos[-1] if used_videos else None; used_videos = []
        if h2 : resetVideos videos used.getLast? excl = [] then
          -- break: note used_videos was already reset to [] at this point
          .out ⟨[], fl, total, excl⟩
        else
          -- used_videos is [] after the reset, so the adjacent-repeat guard cannot fire
          asmLoop dur duration videos choice fuel (k + 1)
            [pick _ (choice k) h2]
            (total + dur (pick _ (choice k) h2))
            (fl ++ [pick _ (choice k) h2]) excl
      else
        if used ≠ [] ∧ used.getLast? = some (pick _ (choice k) h) then
          -- `continue`: redraw without recording progress
          asmLoop dur duration videos choice fuel (k + 1) used total fl excl
        else
          asmLoop dur duration videos choice fuel (k + 1)
            (used ++ [pick _ (choice k) h])
            (total + dur (pick _ (choice k) h))
            (fl ++ [pick _ (choice k) h]) excl

/-- Result of one full `create_distraction_video` call.  The `ok` payload
is the returned `used_videos` list together with the manifest clip list
`fl` (the content of the produced artifact). -/
inductive AsmResult (α : Type) where
  | ok (used fl : List α)
  | noCandidates
  | insufficientClips
  | engineFailure
  | diverge
  deriving DecidableEq

/-- `create_distraction_video` (src/distraction.py): empty-pool check,
selection loop, empty-manifest check, then manifest write, concat engine
run (`engineOk`), manifest unlink on engine success.  The second component
is the content of the caller's `exclude_list` object after the call. -/
def createDistractionVideo (dur : α → δ) (duration : δ) (videos : List α)
    (excl : List α) (choice : ℕ → ℕ) (fuel : ℕ) (engineOk : Bool) :
    AsmResult α × List α :=
  if videos = [] then (.noCandidates, excl)
  else
    match asmLoop dur duration videos choice fuel 0 [] 0 [] excl with
    | .diverge e => (.diverge, e)
    | .out o =>
      if o.fl = [] then (.insufficientClips, o.excl)
      else if engineOk then (.ok o.used o.fl, o.excl)
      else (.engineFailure, o.excl)

/-! ## File-effect model of one variant job (src/variants.py `variant1`) -/

/-- Temporary files of one variant job: the manifest
`temp_distraction_list_<uuid>.txt` and the artifact
`temp_distraction_video_<uuid>.mp4` of assembler call `i`. -/
inductive FileId where
  | manifest (i : ℕ)
  | artifact (i : ℕ)
  deriving DecidableEq

/-- Files created and deleted while a job runs. -/
structure FsLog where
  created : List FileId
  deleted : List FileId
  deriving DecidableEq

/-- File effects of one `create_distraction_video` call, tagged `i`:
after a successful selection the manifest is written, the concat engine
runs (creating the artifact on success), and the manifest is unlinked
only after an engine success; a non-zero engine exit raises before the
unlink (src/distraction.py lines 52, 87-91).  Returns `some used_videos`
when the call returns, `none` when it raises or diverges. -/
def createDistractionVideoFx (dur : α → δ) (duration : δ) (videos excl : List α)
    (choice : ℕ → ℕ) (fuel : ℕ) (engineOk : Bool) (i : ℕ) :
    FsLog × Option (List α) :=
  match (createDistractionVideo dur duration videos excl choice fuel engineOk).1 with
  | .ok used _ => (⟨[.manifest i, .artifact i], [.manifest i]⟩, some used)
  | .engineFailure => (⟨[.manifest i], []⟩, none)
  | _ => (⟨[], []⟩, none)

/-- Whether the variant coroutine returned normally or raised. -/
inductive VariantOutcome where
  | raised
  | returned
  deriving DecidableEq

/-- Observable result of one variant job. -/
structure VariantFx where
  created : List FileId
  deleted : List FileId
  outcome : VariantOutcome
  deriving DecidableEq

/-- Control and file-effect flow of `Variants.variant1`
(src/variants.py lines 117-179): the duration probe runs outside any
`try` (line 123); the two assembler calls share one `try/except` that
logs and returns on failure, with no cleanup; the composition engine run
has a `try/except/finally` whose `finally` retry-deletes the two
artifact files whatever `composeOk` is. -/
def variant1Fx (probeOk : Bool) (dur : α → δ) (duration : δ) (videos : List α)
    (choice1 choice2 : ℕ → ℕ) (fuel1 fuel2 : ℕ)
    (engineOk1 engineOk2 _composeOk : Bool) : VariantFx :=
  if !probeOk then ⟨[], [], .raised⟩
  else
    match createDistractionVideoFx dur duration videos [] choice1 fuel1 engineOk1 1 with
    | (log1, none) => ⟨log1.created, log1.deleted, .returned⟩
    | (log1, some used1) =>
      match createDistractionVideoFx dur duration videos used1 choice2 fuel2 engineOk2 2 with
      | (log2, none) =>
        ⟨log1.created ++ log2.created, log1.deleted ++ log2.deleted, .returned⟩
      | (log2, some _) =>
        -- composeOk only selects between the try and except arms; the
        -- finally block deletes both artifacts either way
        ⟨log1.created ++ log2.created,
         log1.deleted ++ log2.deleted ++ [.artifact 1, .artifact 2],
         .returned⟩

/-! ## Concurrency-permit model of the engine invocation sites -/

/-- Atomic actions of an engine-invoking code path: taking and giving
back the shared semaphore, and an engine subprocess starting/finishing. -/
inductive Act where
  | acquire
  | engStart
  | engEnd
  | release
  deriving DecidableEq

/-- `Variants.run_ffmpeg_command` (src/variants.py lines 70-97): the
whole engine invocation sits inside `async with self.semaphore`. -/
def runFfmpegScript : List Act := [.acquire, .engStart, .engEnd, .release]

/-- The concat invocation of `create_distraction_video`
(src/distraction.py lines 79-85): the subprocess is spawned and awaited
with no semaphore in scope. -/
def concatScript : List Act := [.engStart, .engEnd]

/-- `add_music_to_video` (src/music.py lines 28-46): the mix invocation
sits inside `async with semaphore`. -/
def musicMixScript : List Act := [.acquire, .engStart, .engEnd, .release]

/-- Scheduler state: semaphore counter, per-task remaining scripts, and
the number of engine subprocesses currently running. -/
structure Sys where
  sem : ℕ
  procs : List (List Act)
  running : ℕ
  deriving DecidableEq

/-- An acquire blocks while the semaphore counter is zero. -/
def enabledAct (s : Sys) (a : Act) : Bool :=
  match a with
  | .acquire => decide (0 < s.sem)
  | _ => true

/-- Effect of one action on the counters. -/
def applyAct (s : Sys) (a : Act) : Sys :=
  match a with
  | .acquire => ⟨s.sem - 1, s.procs, s.running⟩
  | .release => ⟨s.sem + 1, s.procs, s.running⟩
  | .engStart => ⟨s.sem, s.procs, s.running + 1⟩
  | .engEnd => ⟨s.sem, s.procs, s.running - 1⟩

/-- Run the next action of task `i`, if any and if enabled. -/
def stepProc (s : Sys) (i : ℕ) : Option Sys :=
  match s.procs.get? i with
  | some (a :: rest) =>
    if enabledAct s a then some { applyAct s a with procs := s.procs.set i rest }
    else none
  | _ => none

/-- Run a whole schedule (list of task indices) cooperatively. -/
def runSched (s : Sys) : List ℕ → Option Sys
  | [] => some s
  | i :: rest =>
    match stepProc s i with
    | some s2 => runSched s2 rest
    | none => none

/-- Scripts that currently hold a permit (between acquire and release). -/
def holding : List Act → Bool
  | [.engStart, .engEnd, .release] => true
  | [.engEnd, .release] => true
  | [.release] => true
  | _ => false

/-- Scripts whose engine subprocess is currently running. -/
def runningScript : List Act → Bool
  | [.engEnd, .release] => true
  | _ => false

/-- The shapes a permit-guarded task can be in. -/
def guardedSuffix (p : List Act) : Prop :=
  p = [.acquire, .engStart, .engEnd, .release] ∨
    p = [.engStart, .engEnd, .release] ∨ p = [.engEnd, .release] ∨
    p = [.release] ∨ p = []

/-- Inductive invariant of the permit discipline. -/
def SysInv (cap : ℕ) (s : Sys) : Prop :=
  (∀ p ∈ s.procs, guardedSuffix p) ∧
    s.sem + s.procs.countP holding = cap ∧
    s.running = s.procs.countP runningScript

/-! ## Retry-cleanup model (src/variants.py `delete_file_with_retry`) -/

/-- Outcome of one `file_path.unlink(missing_ok=True)` attempt. -/
inductive DelOutcome where
  | deleted
  | absent
  | permissionDenied
  | otherError
  deriving DecidableEq

/-- Whether `delete_file_with_retry` returns normally or lets an
exception escape. -/
inductive DelResult where
  | returned
  | raised
  deriving DecidableEq

/-- The `for attempt in range(retries)` loop (src/variants.py lines
107-115): unlink success or an already-absent file returns immediately;
`PermissionError` sleeps and retries; any other exception is not caught;
an exhausted loop logs and returns. -/
def delRetryLoop (behav : ℕ → DelOutcome) : ℕ → ℕ → DelResult
  | _, 0 => .returned
  | attempt, n + 1 =>
    match behav attempt with
    | .deleted => .returned
    | .absent => .returned
    | .permissionDenied => delRetryLoop behav (attempt + 1) n
    | .otherError => .raised

/-- `Variants.delete_file_with_retry` with attempt behaviour `behav`. -/
def deleteFileWithRetry (behav : ℕ → DelOutcome) (retries : ℕ) : DelResult :=
  delRetryLoop behav 0 retries

/-! ## Music mixer model (src/music.py `add_random_music_to_results`) -/

/-- A result video, as pathlib exposes it: `stem` and `suffix`
(the suffix carries the dot). -/
structure VideoFile where
  stem : String
  suffix : String
  deriving DecidableEq

/-- `result_folder / f"{video_file.stem}_music{video_file.suffix}"`
(src/music.py line 56). -/
def musicOutput (v : VideoFile) : VideoFile :=
  ⟨v.stem ++ "_music", v.suffix⟩

variable {μ : Type}

/-- One scheduled mix invocation. -/
structure MixJob (μ : Type) where
  video : VideoFile
  music : μ
  output : VideoFile

/-- The task-creating loop (src/music.py lines 53-57): one task per
result video, each given a random music pick and the `_music` sibling
output path; an engine failure only logs, an engine success creates the
output file. -/
def mixTasks (musicFiles : List μ) (hm : musicFiles ≠ []) (choice : ℕ → ℕ)
    (engineOk : ℕ → Bool) : ℕ → List VideoFile → List (MixJob μ) × List VideoFile
  | _, [] => ([], [])
  | k, v :: rest =>
    ((⟨v, pick musicFiles (choice k) hm, musicOutput v⟩ : MixJob μ) ::
        (mixTasks musicFiles hm choice engineOk (k + 1) rest).1,
      (if engineOk k then [musicOutput v] else []) ++
        (mixTasks musicFiles hm choice engineOk (k + 1) rest).2)

/-- Observable result of the mixer pass. -/
structure MixFx (μ : Type) where
  jobs : List (MixJob μ)
  created : List VideoFile
  deleted : List VideoFile

/-- `add_random_music_to_results` (src/music.py): empty-list guards
first, then the per-video task loop; nothing is ever unlinked. -/
def addRandomMusicToResults (videoFiles : List VideoFile) (musicFiles : List μ)
    (choice : ℕ → ℕ) (engineOk : ℕ → Bool) : MixFx μ :=
  match musicFiles with
  | [] => ⟨[], [], []⟩
  | m :: ms =>
    if videoFiles = [] then ⟨[], [], []⟩
    else
      ⟨(mixTasks (m :: ms) (List.cons_ne_nil m ms) choice engineOk 0 videoFiles).1,
        (mixTasks (m :: ms) (List.cons_ne_nil m ms) choice engineOk 0 videoFiles).2, []⟩

omit [DecidableEq α] in
theorem pick_mem (l : List α) (n : ℕ) (h : l ≠ []) : pick l n h ∈ l :=
  l.get_mem _ _

theorem mem_availableVideos {videos used excl : List α} {v : α} :
    v ∈ availableVideos videos used excl ↔ v ∈ videos ∧ v ∉ used ∧ v ∉ excl := by
  simp [availableVideos]

theorem mem_resetVideos {videos excl : List α} {last : Option α} {v : α} :
    v ∈ resetVideos videos last excl ↔ v ∈ videos ∧ some v ≠ last ∧ v ∉ excl := by
  simp [resetVideos]

theorem resetVideos_eq_nil {videos excl : List α} {last : Option α}
    (h : resetVideos videos last excl = []) :
    ∀ v ∈ videos, v ∉ excl → some v = last := by
  intro v hv hne
  by_contra hne2
  have hmem : v ∈ resetVideos videos last excl := mem_resetVideos.mpr ⟨hv, hne2, hne⟩
  simp [h] at hmem

omit [DecidableEq α] in
theorem sumDur_append (dur : α → δ) (l₁ l₂ : List α) :
    sumDur dur (l₁ ++ l₂) = sumDur dur l₁ + sumDur dur l₂ := by
  induction l₁ with
  | nil => simp [sumDur]
  | cons a l ih => simp [sumDur, ih, add_assoc]

/-- The loop never writes to the `exclude_list` object: the threaded
contents come out exactly as they went in. -/
theorem asmLoop_exclOf (dur : α → δ) (duration : δ) (videos : List α) (choice : ℕ → ℕ) :
    ∀ (fuel k : ℕ) (used : List α) (total : δ) (fl excl : List α),
      (asmLoop dur duration videos choice fuel k used total fl excl).exclOf = excl := by
  intro fuel
  induction fuel with
  | zero => intro k used total fl excl; rfl
  | succ n ih =>
    intro k used total fl excl
    rw [asmLoop]
    split
    · rfl
    · split
      · split
        · rfl
        · apply ih
      · split
        · apply ih
        · apply ih

/-- Every clip recorded in `used_videos` stays outside the exclusion list. -/
theorem asmLoop_out_excl_free (dur : α → δ) (duration : δ) (videos : List α)
    (choice : ℕ → ℕ) :
    ∀ (fuel k : ℕ) (used : List α) (total : δ) (fl excl : List α),
      (∀ v ∈ used, v ∉ excl) →
      ∀ o, asmLoop dur duration videos choice fuel k used total fl excl = .out o →
      ∀ v ∈ o.used, v ∉ excl := by
  intro fuel
  induction fuel with
  | zero => intro k used total fl excl _ o ho; exact absurd ho (by simp [asmLoop])
  | succ n ih =>
    intro k used total fl excl hinv o ho
    rw [asmLoop] at ho
    split at ho
    · injection ho with h; subst h; exact hinv
    · split at ho
      · split at ho
        · injection ho with h; subst h; intro v hv; simp at hv
        · refine ih _ _ _ _ _ ?_ o ho
          intro v hv
          simp only [List.mem_singleton] at hv
          subst hv
          exact (mem_resetVideos.mp (pick_mem _ _ _)).2.2
      · split at ho
        · exact ih _ _ _ _ _ hinv o ho
        · refine ih _ _ _ _ _ ?_ o ho
          intro v hv
          rcases List.mem_append.mp hv with hv | hv
          · exact hinv v hv
          · simp only [List.mem_singleton] at hv
            subst hv
            exact (mem_availableVideos.mp (pick_mem _ _ _)).2.2

/-- `used_videos` never holds a clip twice (each draw is filtered against
the current `used_videos`), so in particular no two adjacent entries are
equal. -/
theorem asmLoop_out_nodup (dur : α → δ) (duration : δ) (videos : List α)
    (choice : ℕ → ℕ) :
    ∀ (fuel k : ℕ) (used : List α) (total : δ) (fl excl : List α),
      used.Nodup →
      ∀ o, asmLoop dur duration videos choice fuel k used total fl excl = .out o →
      o.used.Nodup := by
  intro fuel
  induction fuel with
  | zero => intro k used total fl excl _ o ho; exact absurd ho (by simp [asmLoop])
  | succ n ih =>
    intro k used total fl excl hnd o ho
    rw [asmLoop] at ho
    split at ho
    · injection ho with h; subst h; exact hnd
    · split at ho
      · split at ho
        · injection ho with h; subst h; simp
        · exact ih _ _ _ _ _ (List.nodup_singleton _) o ho
      · rename_i hav
        split at ho
        · exact ih _ _ _ _ _ hnd o ho
        · refine ih _ _ _ _ _ ?_ o ho
          have hv : pick (availableVideos videos used excl) (choice k) hav ∉ used :=
            (mem_availableVideos.mp (pick_mem _ _ _)).2.1
          refine List.nodup_append.mpr ⟨hnd, List.nodup_singleton _, ?_⟩
          intro a ha hb
          rw [List.mem_singleton] at hb
          subst hb
          exact hv ha

/-- `total_duration` is exactly the summed probed duration of the
manifest lines accumulated so far. -/
theorem asmLoop_out_sum (dur : α → δ) (duration : δ) (videos : List α)
    (choice : ℕ → ℕ) :
    ∀ (fuel k : ℕ) (used : List α) (total : δ) (fl excl : List α),
      total = sumDur dur fl →
      ∀ o, asmLoop dur duration videos choice fuel k used total fl excl = .out o →
      o.total = sumDur dur o.fl := by
  intro fuel
  induction fuel with
  | zero => intro k used total fl excl _ o ho; exact absurd ho (by simp [asmLoop])
  | succ n ih =>
    intro k used total fl excl hsum o ho
    rw [asmLoop] at ho
    split at ho
    · injection ho with h; subst h; exact hsum
    · split at ho
      · split at ho
        · injection ho with h; subst h; exact hsum
        · refine ih _ _ _ _ _ ?_ o ho
          rw [sumDur_append, hsum]
          simp [sumDur]
      · split at ho
        · exact ih _ _ _ _ _ hsum o ho
        · refine ih _ _ _ _ _ ?_ o ho
          rw [sumDur_append, hsum]
          simp [sumDur]

/-- How the loop can finish: either the accumulated duration reached the
target, or the post-reset candidate list was empty, which forces every
clip of the pool outside the exclusion list to be one same clip. -/
theorem asmLoop_out_reach (dur : α → δ) (duration : δ) (videos : List α)
    (choice : ℕ → ℕ) :
    ∀ (fuel k : ℕ) (used : List α) (total : δ) (fl excl : List α),
      ∀ o, asmLoop dur duration videos choice fuel k used total fl excl = .out o →
      duration ≤ o.total ∨
        (∀ a ∈ videos, a ∉ excl → ∀ b ∈ videos, b ∉ excl → a = b) := by
  intro fuel
  induction fuel with
  | zero => intro k used total fl excl o ho; exact absurd ho (by simp [asmLoop])
  | succ n ih =>
    intro k used total fl excl o ho
    rw [asmLoop] at ho
    split at ho
    · rename_i hle
      injection ho with h; subst h; exact Or.inl hle
    · split at ho
      · split at ho
        · rename_i h2
          refine Or.inr ?_
          intro a ha hae b hb hbe
          have h1 := resetVideos_eq_nil h2 a ha hae
          have h3 := resetVideos_eq_nil h2 b hb hbe
          exact Option.some.inj (h1.trans h3.symm)
        · exact ih _ _ _ _ _ o ho
      · split at ho
        · exact ih _ _ _ _ _ o ho
        · exact ih _ _ _ _ _ o ho

/-- A successful call comes from a loop exit with a non-empty manifest
and a successful engine run. -/
theorem cdv_ok_elim {dur : α → δ} {duration : δ} {videos excl : List α}
    {choice : ℕ → ℕ} {fuel : ℕ} {engineOk : Bool} {used fl : List α}
    (h : (createDistractionVideo dur duration videos excl choice fuel engineOk).1 =
      .ok used fl) :
    ∃ o : LoopOut α δ, asmLoop dur duration videos choice fuel 0 [] 0 [] excl = .out o ∧
      o.used = used ∧ o.fl = fl ∧ o.fl ≠ [] := by
  unfold createDistractionVideo at h
  by_cases hv : videos = []
  · rw [if_pos hv] at h
    exact absurd h (by simp)
  · rw [if_neg hv] at h
    split at h
    · exact absurd h (by simp)
    · rename_i o heq
      by_cases hfl : o.fl = []
      · rw [if_pos hfl] at h
        exact absurd h (by simp)
      · rw [if_neg hfl] at h
        cases engineOk with
        | false => exact absurd h (by simp)
        | true =>
          simp only [if_true] at h
          have h2 : AsmResult.ok o.used o.fl = AsmResult.ok used fl := h
          injection h2 with hu hf
          exact ⟨o, heq, hu, hf, hfl⟩

omit [DecidableEq α] in
theorem pick_singleton (a : α) (n : ℕ) (h : ([a] : List α) ≠ []) : pick [a] n h = a := by
  simp [pick]

/-- A run over a one-clip pool whose duration falls short of the target:
one draw, then a reset that finds no candidate, so the loop breaks with
the used list cleared and the single clip in the manifest. -/
theorem asmLoop_single (dur : α → δ) (duration : δ) (a : α) (choice : ℕ → ℕ)
    (h0 : 0 ≤ dur a) (hlt : dur a < duration) :
    ∀ n k, asmLoop dur duration [a] choice (n + 2) k [] 0 [] [] =
      .out ⟨[], [a], dur a, []⟩ := by
  intro n k
  have hav : availableVideos [a] [] ([] : List α) = [a] := by simp [availableVideos]
  have hA : ¬ availableVideos [a] [] ([] : List α) = [] := by simp [hav]
  rw [asmLoop, if_neg (by intro hc; exact absurd (lt_of_le_of_lt h0 hlt) (not_lt.mpr hc)),
    dif_neg hA, if_neg (by simp)]
  simp only [hav, pick_singleton, List.nil_append, zero_add]
  have hA2 : availableVideos [a] [a] ([] : List α) = [] := by simp [availableVideos]
  have hB2 : resetVideos [a] (([a] : List α).getLast?) ([] : List α) = [] := by
    simp [resetVideos]
  rw [asmLoop, if_neg (not_le.mpr hlt), dif_pos hA2, dif_pos hB2]

/-! ## Claims about the Distraction Assembler -/

/-- C3 counterexample: a one-clip pool (clip 0, probed duration 10) with
target 25.  The call returns successfully, yet its returned used list is
empty after the final reset, so the summed probed duration of the clips
in the returned used list is 0, below the requested target. -/
theorem C3_cex :
    (createDistractionVideo (fun _ : ℕ => (10 : ℤ)) 25 [0] [] (fun _ => 0) 5 true).1 =
        .ok [] [0] ∧
      ¬ (25 : ℤ) ≤ sumDur (fun _ : ℕ => (10 : ℤ)) [] := by
  exact ⟨by decide, by decide⟩

/-- C3 (amended): whenever the usable pool (pool minus exclude list)
holds at least two distinct clips, every successful assembly call has a
manifest whose summed probed durations reach the requested target; with
at most one usable clip the call may return a shorter result, and its
returned used list may even be empty. -/
theorem C3_two_usable_reach_target (dur : α → δ) (duration : δ)
    (videos excl : List α) (choice : ℕ → ℕ) (fuel : ℕ) (engineOk : Bool)
    (used fl : List α) (a b : α)
    (ha : a ∈ videos) (hae : a ∉ excl) (hb : b ∈ videos) (hbe : b ∉ excl)
    (hab : a ≠ b)
    (h : (createDistractionVideo dur duration videos excl choice fuel engineOk).1 =
      .ok used fl) :
    duration ≤ sumDur dur fl := by
  obtain ⟨o, heq, -, hofl, -⟩ := cdv_ok_elim h
  have hsum := asmLoop_out_sum dur duration videos choice fuel 0 [] 0 [] excl rfl o heq
  rcases asmLoop_out_reach dur duration videos choice fuel 0 [] 0 [] excl o heq with
    hle | hone
  · rw [← hofl, ← hsum]
    exact hle
  · exact absurd (hone a ha hae b hb hbe) hab

theorem C3_witness :
    (createDistractionVideo (fun _ : ℕ => (10 : ℤ)) 15 [0, 1] [] (fun _ => 0) 10 true).1 =
        .ok [0, 1] [0, 1] ∧
      (15 : ℤ) ≤ sumDur (fun _ : ℕ => (10 : ℤ)) [0, 1] :=
  ⟨by decide,
    C3_two_usable_reach_target (fun _ => (10 : ℤ)) 15 [0, 1] [] (fun _ => 0) 10 true
      [0, 1] [0, 1] 0 1 (by decide) (by decide) (by decide) (by decide) (by decide)
      (by decide)⟩

/-- C4: the exclusion filter is applied on both the normal and the
post-reset draw, so a second assembly call excluding the first call's
used list returns a used list disjoint from it; and when every pool clip
is excluded the second call raises (its manifest stays empty) rather
than reusing an excluded clip. -/
theorem C4_disjoint_or_explicit_failure (dur : α → δ) (duration : δ)
    (videos used1 : List α) (choice : ℕ → ℕ) (fuel : ℕ) (engineOk : Bool)
    (used2 fl2 : List α) :
    ((createDistractionVideo dur duration videos used1 choice fuel engineOk).1 =
        .ok used2 fl2 → ∀ v ∈ used2, v ∉ used1) ∧
    (videos ≠ [] → (∀ v ∈ videos, v ∈ used1) → 1 ≤ fuel →
      (createDistractionVideo dur duration videos used1 choice fuel engineOk).1 =
        .insufficientClips) := by
  constructor
  · intro h v hv
    obtain ⟨o, heq, hou, -, -⟩ := cdv_ok_elim h
    have hfree := asmLoop_out_excl_free dur duration videos choice fuel 0 [] 0 [] used1
      (by intro w hw; simp at hw) o heq
    rw [hou] at hfree
    exact hfree v hv
  · intro hv hsub hfuel
    obtain ⟨n, rfl⟩ : ∃ n, fuel = n + 1 := ⟨fuel - 1, by omega⟩
    have hA : availableVideos videos [] used1 = [] := by
      simp only [availableVideos, List.filter_eq_nil_iff]
      intro a ha
      simp [hsub a ha]
    have hB : resetVideos videos (([] : List α).getLast?) used1 = [] := by
      simp only [resetVideos, List.filter_eq_nil_iff]
      intro a ha
      simp [hsub a ha]
    unfold createDistractionVideo
    rw [if_neg hv, asmLoop]
    by_cases hd : duration ≤ 0
    · rw [if_pos hd]
      simp
    · rw [if_neg hd, dif_pos hA, dif_pos hB]
      simp

theorem C4_witness :
    (∀ v ∈ ([1] : List ℕ), v ∉ ([0] : List ℕ)) ∧
      (createDistractionVideo (fun _ : ℕ => (10 : ℤ)) 5 [0] [0] (fun _ => 0) 3 true).1 =
        .insufficientClips :=
  ⟨(C4_disjoint_or_explicit_failure (fun _ => (10 : ℤ)) 5 [0, 1] [0] (fun _ => 0) 10 true
      [1] [1]).1 (by decide),
    (C4_disjoint_or_explicit_failure (fun _ => (10 : ℤ)) 5 [0] [0] (fun _ => 0) 3 true
      [] []).2 (by decide) (by decide) (by decide)⟩

/-- C5 counterexample: usable pool of exactly one clip (clip 7, probed
duration 10) with target 25.  The call does not raise: it returns
successfully with the single clip in the manifest. -/
theorem C5_cex :
    (createDistractionVideo (fun _ : ℕ => (10 : ℤ)) 25 [7] [] (fun _ => 0) 6 true).1 =
      .ok [] [7] := by
  decide

/-- C5 (amended): on every successful call no two adjacent entries of the
returned used list are the same clip (the returned list is in fact
duplicate-free); but with a single usable clip whose duration is below
the target, the call succeeds with that clip alone instead of raising. -/
theorem C5_no_adjacent_repeat (dur : α → δ) (duration : δ) (videos excl : List α)
    (choice : ℕ → ℕ) (fuel : ℕ) (engineOk : Bool) (used fl : List α) (a : α) (n : ℕ) :
    ((createDistractionVideo dur duration videos excl choice fuel engineOk).1 =
        .ok used fl → used.Chain' (· ≠ ·)) ∧
    (videos = [a] → excl = [] → 0 ≤ dur a → dur a < duration →
      (createDistractionVideo dur duration videos excl choice (n + 2) true).1 =
        .ok [] [a]) := by
  constructor
  · intro h
    obtain ⟨o, heq, hou, -, -⟩ := cdv_ok_elim h
    have hnd := asmLoop_out_nodup dur duration videos choice fuel 0 [] 0 [] excl
      (by simp) o heq
    rw [hou] at hnd
    exact List.Pairwise.chain' hnd
  · rintro rfl rfl h0 hlt
    unfold createDistractionVideo
    rw [if_neg (by simp), asmLoop_single dur duration a choice h0 hlt n 0]
    simp

theorem C5_witness :
    ([0, 1] : List ℕ).Chain' (· ≠ ·) ∧
      (createDistractionVideo (fun _ : ℕ => (10 : ℤ)) 25 [5] [] (fun _ => 0) 6 true).1 =
        .ok [] [5] :=
  ⟨(C5_no_adjacent_repeat (fun _ => (10 : ℤ)) 15 [0, 1] [] (fun _ => 0) 10 true
      [0, 1] [0, 1] 0 0).1 (by decide),
    (C5_no_adjacent_repeat (fun _ : ℕ => (10 : ℤ)) 25 [5] [] (fun _ => 0) 6 true
      [] [] 5 4).2 rfl rfl (by decide) (by decide)⟩

/-- C9 counterexample: pool of one clip (clip 3, probed duration 10),
target 12.  The call succeeds but its returned used list is empty (it
was reset just before the loop broke), refuting that every successful
call returns at least one clip in the used list. -/
theorem C9_cex :
    (createDistractionVideo (fun _ : ℕ => (10 : ℤ)) 12 [3] [] (fun _ => 0) 4 true).1 =
      .ok [] [3] := by
  decide

/-- C9 (amended): with a non-empty pool and a target duration of at most
zero the call raises; and every successful call has assembled at least
one clip into the manifest, though the returned used list itself can be
empty. -/
theorem C9_nonpositive_target_fails (dur : α → δ) (duration : δ)
    (videos excl : List α) (choice : ℕ → ℕ) (fuel : ℕ) (engineOk : Bool)
    (used fl : List α) :
    (videos ≠ [] → duration ≤ 0 → 1 ≤ fuel →
      (createDistractionVideo dur duration videos excl choice fuel engineOk).1 =
        .insufficientClips) ∧
    ((createDistractionVideo dur duration videos excl choice fuel engineOk).1 =
        .ok used fl → fl ≠ []) := by
  constructor
  · intro hv hd hfuel
    obtain ⟨n, rfl⟩ : ∃ n, fuel = n + 1 := ⟨fuel - 1, by omega⟩
    unfold createDistractionVideo
    rw [if_neg hv, asmLoop, if_pos hd]
    simp
  · intro h
    obtain ⟨o, -, -, hofl, hne⟩ := cdv_ok_elim h
    rw [← hofl]
    exact hne

theorem C9_witness :
    (createDistractionVideo (fun _ : ℕ => (10 : ℤ)) 0 [2] [] (fun _ => 0) 3 true).1 =
        .insufficientClips ∧
      ([4] : List ℕ) ≠ [] :=
  ⟨(C9_nonpositive_target_fails (fun _ => (10 : ℤ)) 0 [2] [] (fun _ => 0) 3 true
      [] []).1 (by decide) (by decide) (by decide),
    (C9_nonpositive_target_fails (fun _ => (10 : ℤ)) 9 [4] [] (fun _ => 0) 3 true
      [4] [4]).2
      (by decide)⟩

/-- C10: the assembler never mutates its `exclude_list` argument: on
every outcome (success, any failure, divergence) the threaded exclusion
contents come back exactly as passed in, so repeated calls through the
shared mutable default keep it empty. -/
theorem C10_exclude_list_unchanged (dur : α → δ) (duration : δ)
    (videos excl : List α) (choice : ℕ → ℕ) (fuel : ℕ) (engineOk : Bool) :
    (createDistractionVideo dur duration videos excl choice fuel engineOk).2 = excl := by
  unfold createDistractionVideo
  by_cases hv : videos = []
  · rw [if_pos hv]
  · rw [if_neg hv]
    have h := asmLoop_exclOf dur duration videos choice fuel 0 [] 0 [] excl
    split
    · rename_i e heq
      rw [heq] at h
      exact h
    · rename_i o heq
      rw [heq] at h
      by_cases hfl : o.fl = []
      · rw [if_pos hfl]
        exact h
      · rw [if_neg hfl]
        cases engineOk
        · rw [if_neg (by simp)]
          exact h
        · rw [if_pos rfl]
          exact h

/-! ## Claims about the variant job (cleanup and error containment) -/

/-- C1 counterexample: a job whose first assembly selection succeeds but
whose concat engine invocation exits non-zero.  The raise at
src/distraction.py line 88 happens before the manifest unlink at line 91,
and the variant job then finishes (returns), leaving the manifest file
created but never deleted. -/
theorem C1_cex :
    (variant1Fx true (fun _ : ℕ => (10 : ℤ)) 5 [0] (fun _ => 0) (fun _ => 0) 3 3
        false true true).outcome = .returned ∧
      FileId.manifest 1 ∈ (variant1Fx true (fun _ : ℕ => (10 : ℤ)) 5 [0] (fun _ => 0)
        (fun _ => 0) 3 3 false true true).created ∧
      FileId.manifest 1 ∉ (variant1Fx true (fun _ : ℕ => (10 : ℤ)) 5 [0] (fun _ => 0)
        (fun _ => 0) 3 3 false true true).deleted := by
  decide

/-- C1 (amended): when both assembly calls of the job succeed, every
temporary file the job created (the two manifests, deleted by the
assembler itself after each engine success, and the two artifacts,
retry-deleted in the `finally` block) is deleted before the job
finishes, whatever the composition run's outcome; when an assembly step
fails, the already-created temporaries of the job are not cleaned up. -/
theorem C1_cleanup_when_assemblies_succeed (dur : α → δ) (duration : δ)
    (videos : List α) (choice1 choice2 : ℕ → ℕ) (fuel1 fuel2 : ℕ)
    (engineOk1 engineOk2 composeOk : Bool) (used1 fl1 used2 fl2 : List α)
    (h1 : (createDistractionVideo dur duration videos [] choice1 fuel1 engineOk1).1 =
      .ok used1 fl1)
    (h2 : (createDistractionVideo dur duration videos used1 choice2 fuel2 engineOk2).1 =
      .ok used2 fl2) :
    ∀ f ∈ (variant1Fx true dur duration videos choice1 choice2 fuel1 fuel2
        engineOk1 engineOk2 composeOk).created,
      f ∈ (variant1Fx true dur duration videos choice1 choice2 fuel1 fuel2
        engineOk1 engineOk2 composeOk).deleted := by
  have e1 : createDistractionVideoFx dur duration videos [] choice1 fuel1 engineOk1 1 =
      (⟨[.manifest 1, .artifact 1], [.manifest 1]⟩, some used1) := by
    unfold createDistractionVideoFx
    rw [h1]
  have e2 : createDistractionVideoFx dur duration videos used1 choice2 fuel2 engineOk2 2 =
      (⟨[.manifest 2, .artifact 2], [.manifest 2]⟩, some used2) := by
    unfold createDistractionVideoFx
    rw [h2]
  unfold variant1Fx
  simp only [Bool.not_true, Bool.false_eq_true, if_false, e1, e2]
  intro f hf
  simp only [List.mem_append, List.mem_cons, List.not_mem_nil, or_false] at hf ⊢
  tauto

theorem C1_witness :
    (createDistractionVideo (fun _ : ℕ => (10 : ℤ)) 5 [0, 1] [] (fun _ => 0) 3 true).1 =
        .ok [0] [0] ∧
      (createDistractionVideo (fun _ : ℕ => (10 : ℤ)) 5 [0, 1] [0] (fun _ => 0) 3 true).1 =
        .ok [1] [1] ∧
      ∀ f ∈ (variant1Fx true (fun _ : ℕ => (10 : ℤ)) 5 [0, 1] (fun _ => 0) (fun _ => 0)
          3 3 true true false).created,
        f ∈ (variant1Fx true (fun _ : ℕ => (10 : ℤ)) 5 [0, 1] (fun _ => 0) (fun _ => 0)
          3 3 true true false).deleted :=
  ⟨by decide, by decide,
    C1_cleanup_when_assemblies_succeed (fun _ : ℕ => (10 : ℤ)) 5 [0, 1] (fun _ => 0)
      (fun _ => 0) 3 3 true true false [0] [0] [1] [1] (by decide) (by decide)⟩

/-- C6 counterexample: a failing duration probe.  The probe call sits
outside every `try` in `variant1` (src/variants.py line 123), so the
variant coroutine raises instead of returning normally. -/
theorem C6_cex :
    (variant1Fx false (fun _ : ℕ => (10 : ℤ)) 0 [] (fun _ => 0) (fun _ => 0) 0 0
      true true true).outcome = .raised := by
  decide

/-- C6 (amended): once the duration probe has succeeded, every assembly
failure, concat engine failure and composition engine failure is caught
inside `variant1`, which then returns normally; a duration-probe failure,
however, escapes the variant function. -/
theorem C6_errors_caught_after_probe (dur : α → δ) (duration : δ) (videos : List α)
    (choice1 choice2 : ℕ → ℕ) (fuel1 fuel2 : ℕ)
    (engineOk1 engineOk2 composeOk : Bool) :
    (variant1Fx true dur duration videos choice1 choice2 fuel1 fuel2
      engineOk1 engineOk2 composeOk).outcome = .returned := by
  unfold variant1Fx
  simp only [Bool.not_true, Bool.false_eq_true, if_false]
  split
  · rfl
  · split
    · rfl
    · rfl

/-! ## Claim about the concurrency permit (C2) -/

/-- Transferring one element of a `countP` across a `List.set`. -/
theorem countP_set_eq {β : Type} (p : β → Bool) :
    ∀ (l : List β) (i : ℕ) (a b : β), l.get? i = some a →
      (l.set i b).countP p + (if p a then 1 else 0) =
        l.countP p + (if p b then 1 else 0) := by
  intro l
  induction l with
  | nil => intro i a b h; simp at h
  | cons x xs ih =>
    intro i a b h
    cases i with
    | zero =>
      injection h with h
      subst h
      simp only [List.set, List.countP_cons]
      split_ifs <;> omega
    | succ j =>
      have h2 : xs.get? j = some a := by simpa using h
      have := ih j a b h2
      simp only [List.set, List.countP_cons]
      split_ifs at this ⊢ <;> omega

/-- One scheduler step preserves the permit invariant. -/
theorem stepProc_inv {cap : ℕ} {s s2 : Sys} {i : ℕ}
    (hinv : SysInv cap s) (hstep : stepProc s i = some s2) : SysInv cap s2 := by
  obtain ⟨hg, hsem, hrun⟩ := hinv
  unfold stepProc at hstep
  split at hstep
  · rename_i a rest hget
    split at hstep
    · rename_i hen
      injection hstep with hs2
      subst hs2
      have hmem := List.get?_mem hget
      have hcH := countP_set_eq holding s.procs i _ rest hget
      have hcR := countP_set_eq runningScript s.procs i _ rest hget
      rcases hg _ hmem with hgs | hgs | hgs | hgs | hgs
      · -- a :: rest = [acquire, engStart, engEnd, release]
        injection hgs with ha hrest
        subst ha
        subst hrest
        simp only [enabledAct, decide_eq_true_eq] at hen
        simp [holding, runningScript] at hcH hcR
        refine ⟨?_, ?_, ?_⟩
        · intro q hq
          rcases List.mem_or_eq_of_mem_set hq with hq | rfl
          · exact hg q hq
          · exact Or.inr (Or.inl rfl)
        · simp only [applyAct]
          omega
        · simp only [applyAct]
          omega
      · -- a :: rest = [engStart, engEnd, release]
        injection hgs with ha hrest
        subst ha
        subst hrest
        simp [holding, runningScript] at hcH hcR
        refine ⟨?_, ?_, ?_⟩
        · intro q hq
          rcases List.mem_or_eq_of_mem_set hq with hq | rfl
          · exact hg q hq
          · exact Or.inr (Or.inr (Or.inl rfl))
        · simp only [applyAct]
          omega
        · simp only [applyAct]
          omega
      · -- a :: rest = [engEnd, release]
        injection hgs with ha hrest
        subst ha
        subst hrest
        simp [holding, runningScript] at hcH hcR
        refine ⟨?_, ?_, ?_⟩
        · intro q hq
          rcases List.mem_or_eq_of_mem_set hq with hq | rfl
          · exact hg q hq
          · exact Or.inr (Or.inr (Or.inr (Or.inl rfl)))
        · simp only [applyAct]
          omega
        · simp only [applyAct]
          omega
      · -- a :: rest = [release]
        injection hgs with ha hrest
        subst ha
        subst hrest
        simp [holding, runningScript] at hcH hcR
        refine ⟨?_, ?_, ?_⟩
        · intro q hq
          rcases List.mem_or_eq_of_mem_set hq with hq | rfl
          · exact hg q hq
          · exact Or.inr (Or.inr (Or.inr (Or.inr rfl)))
        · simp only [applyAct]
          omega
        · simp only [applyAct]
          omega
      · exact absurd hgs (by simp)
    · exact absurd hstep (by simp)
  · exact absurd hstep (by simp)

/-- A whole schedule preserves the permit invariant. -/
theorem runSched_inv {cap : ℕ} :
    ∀ (sched : List ℕ) (s s2 : Sys),
      SysInv cap s → runSched s sched = some s2 → SysInv cap s2 := by
  intro sched
  induction sched with
  | nil =>
    intro s s2 h hr
    unfold runSched at hr
    injection hr with hr
    subst hr
    exact h
  | cons i rest ih =>
    intro s s2 hinv hr
    unfold runSched at hr
    split at hr
    · rename_i s3 hst
      exact ih s3 s2 (stepProc_inv hinv hst) hr
    · exact absurd hr (by simp)

/-- The permit invariant bounds the number of running engines. -/
theorem sysInv_running_le {cap : ℕ} {s : Sys} (h : SysInv cap s) :
    s.running ≤ cap := by
  obtain ⟨hg, hsem, hrun⟩ := h
  have hmono : s.procs.countP runningScript ≤ s.procs.countP holding := by
    apply List.countP_mono_left
    intro p hp hr
    unfold runningScript at hr
    split at hr
    · rfl
    · exact absurd hr (by simp)
  omega

/-- C2 counterexample: the assembler's concat invocation holds no
permit, so five concurrently scheduled concat invocations all reach
their engine-start step under a capacity of 4, leaving five engine
processes running at once. -/
theorem C2_cex :
    runSched ⟨4, List.replicate 5 concatScript, 0⟩ [0, 1, 2, 3, 4] =
        some ⟨4, List.replicate 5 [Act.engEnd], 5⟩ ∧
      4 < 5 ∧ Act.acquire ∉ concatScript := by
  decide

/-- C2 (amended): the composition invocations of `run_ffmpeg_command`
and the music-mix invocations do acquire the shared permit around the
engine run, so any number of such tasks, under any interleaving, never
have more engine processes running than the capacity; the assembler's
concat invocation is not permit-guarded. -/
theorem C2_guarded_scripts_capped (cap : ℕ) (procs : List (List Act))
    (hp : ∀ p ∈ procs, p = runFfmpegScript ∨ p = musicMixScript)
    (sched : List ℕ) (s2 : Sys)
    (h : runSched ⟨cap, procs, 0⟩ sched = some s2) :
    s2.running ≤ cap := by
  have hinv : SysInv cap ⟨cap, procs, 0⟩ := by
    refine ⟨?_, ?_, ?_⟩
    · intro p hpp
      rcases hp p hpp with rfl | rfl
      · exact Or.inl rfl
      · exact Or.inl rfl
    · have hz : procs.countP holding = 0 := by
        rw [List.countP_eq_zero]
        intro p hpp
        rcases hp p hpp with rfl | rfl <;> decide
      simp [hz]
    · have hz : procs.countP runningScript = 0 := by
        rw [List.countP_eq_zero]
        intro p hpp
        rcases hp p hpp with rfl | rfl <;> decide
      simp [hz]
  exact sysInv_running_le (runSched_inv sched _ s2 hinv h)

theorem C2_witness :
    Sys.running ⟨1, [[], []], 0⟩ ≤ 1 :=
  C2_guarded_scripts_capped 1 [runFfmpegScript, musicMixScript] (by decide)
    [0, 0, 0, 0, 1, 1, 1, 1] ⟨1, [[], []], 0⟩ (by decide)

/-! ## Claim about retry-cleanup (C7) -/

/-- C7 counterexample: a deletion attempt that fails with an error other
than a permission error (for instance, the path names a directory).
Only `PermissionError` is caught, so the call raises. -/
theorem C7_cex :
    deleteFileWithRetry (fun _ => DelOutcome.otherError) 3 = DelResult.raised := by
  decide

/-- C7 (amended): as long as no deletion attempt fails with an error
other than a permission error, `delete_file_with_retry` never raises:
success or an already-absent file returns at once, permission errors
are retried up to the attempt limit, and an exhausted loop logs and
returns normally. -/
theorem C7_no_raise_without_other_error (behav : ℕ → DelOutcome) (retries : ℕ)
    (h : ∀ k, behav k ≠ DelOutcome.otherError) :
    deleteFileWithRetry behav retries = DelResult.returned := by
  unfold deleteFileWithRetry
  suffices hgen : ∀ (n attempt : ℕ), delRetryLoop behav attempt n = DelResult.returned from
    hgen retries 0
  intro n
  induction n with
  | zero => intro attempt; rfl
  | succ m ih =>
    intro attempt
    cases hb : behav attempt with
    | deleted => simp [delRetryLoop, hb]
    | absent => simp [delRetryLoop, hb]
    | permissionDenied =>
      simp only [delRetryLoop, hb]
      exact ih (attempt + 1)
    | otherError => exact absurd hb (h attempt)

theorem C7_witness :
    deleteFileWithRetry (fun _ => DelOutcome.permissionDenied) 3 = DelResult.returned :=
  C7_no_raise_without_other_error _ 3 (fun k => by decide)

/-! ## Claim about the music mixer (C8) -/

/-- Every listed video gets exactly its own mix job, whose output is the
`_music` sibling. -/
theorem mixTasks_jobs (musicFiles : List μ) (hm : musicFiles ≠ []) (choice : ℕ → ℕ)
    (engineOk : ℕ → Bool) :
    ∀ (k : ℕ) (videos : List VideoFile) (v : VideoFile), v ∈ videos →
      ∃ j ∈ (mixTasks musicFiles hm choice engineOk k videos).1,
        j.video = v ∧ j.output = musicOutput v := by
  intro k videos
  induction videos generalizing k with
  | nil => intro v hv; simp at hv
  | cons w rest ih =>
    intro v hv
    rcases List.mem_cons.mp hv with rfl | hv
    · exact ⟨⟨v, pick musicFiles (choice k) hm, musicOutput v⟩,
        by simp [mixTasks], rfl, rfl⟩
    · obtain ⟨j, hj, hjv, hjo⟩ := ih (k + 1) v hv
      refine ⟨j, ?_, hjv, hjo⟩
      simp only [mixTasks]
      exact List.mem_cons_of_mem _ hj

/-- A mix job whose engine run succeeds creates the `_music` sibling. -/
theorem mixTasks_created (musicFiles : List μ) (hm : musicFiles ≠ [])
    (choice : ℕ → ℕ) (engineOk : ℕ → Bool) :
    ∀ (k : ℕ) (videos : List VideoFile) (j : ℕ) (v : VideoFile),
      videos.get? j = some v → engineOk (k + j) = true →
      musicOutput v ∈ (mixTasks musicFiles hm choice engineOk k videos).2 := by
  intro k videos
  induction videos generalizing k with
  | nil => intro j v h; simp at h
  | cons w rest ih =>
    intro j v hget hok
    cases j with
    | zero =>
      injection hget with hget
      subst hget
      rw [Nat.add_zero] at hok
      simp [mixTasks, hok]
    | succ jj =>
      have hget2 : rest.get? jj = some v := by simpa using hget
      have hok2 : engineOk (k + 1 + jj) = true := by
        have harr : k + 1 + jj = k + (jj + 1) := by omega
        rw [harr]
        exact hok
      have hmem := ih (k + 1) jj v hget2 hok2
      simp only [mixTasks]
      exact List.mem_append.mpr (Or.inr hmem)

/-- C8: with an empty music list or an empty video list the mixer does
nothing (no jobs, no files); otherwise every result video gets one mix
job writing to the `<stem>_music<suffix>` sibling, created when that
job's engine run succeeds; and the mixer never deletes any file. -/
theorem C8_mixer_behaviour (videoFiles : List VideoFile) (musicFiles : List μ)
    (choice : ℕ → ℕ) (engineOk : ℕ → Bool) :
    ((musicFiles = [] ∨ videoFiles = []) →
      addRandomMusicToResults videoFiles musicFiles choice engineOk = ⟨[], [], []⟩) ∧
    (addRandomMusicToResults videoFiles musicFiles choice engineOk).deleted = [] ∧
    (musicFiles ≠ [] → ∀ v ∈ videoFiles,
      ∃ j ∈ (addRandomMusicToResults videoFiles musicFiles choice engineOk).jobs,
        j.video = v ∧ j.output = ⟨v.stem ++ "_music", v.suffix⟩) ∧
    (musicFiles ≠ [] → ∀ (k : ℕ) (v : VideoFile), videoFiles.get? k = some v →
      engineOk k = true →
      musicOutput v ∈ (addRandomMusicToResults videoFiles musicFiles choice engineOk).created) := by
  refine ⟨?_, ?_, ?_, ?_⟩
  · rintro (rfl | rfl)
    · rfl
    · cases musicFiles with
      | nil => rfl
      | cons m ms => simp [addRandomMusicToResults]
  · cases musicFiles with
    | nil => rfl
    | cons m ms =>
      by_cases hv : videoFiles = [] <;> simp [addRandomMusicToResults, hv]
  · intro hm v hvv
    cases musicFiles with
    | nil => exact absurd rfl hm
    | cons m ms =>
      have hv : videoFiles ≠ [] := by
        intro h
        rw [h] at hvv
        simp at hvv
      obtain ⟨j, hj, h1, h2⟩ := mixTasks_jobs (m :: ms) (List.cons_ne_nil m ms) choice
        engineOk 0 videoFiles v hvv
      refine ⟨j, ?_, h1, h2⟩
      simpa [addRandomMusicToResults, hv] using hj
  · intro hm k v hget hok
    cases musicFiles with
    | nil => exact absurd rfl hm
    | cons m ms =>
      have hv : videoFiles ≠ [] := by
        intro h
        rw [h] at hget
        simp at hget
      have hmem := mixTasks_created (m :: ms) (List.cons_ne_nil m ms) choice engineOk 0
        videoFiles k v hget (by simpa using hok)
      simpa [addRandomMusicToResults, hv] using hmem

theorem C8_witness :
    musicOutput ⟨"variant1", ".mp4"⟩ ∈
      (addRandomMusicToResults [⟨"variant1", ".mp4"⟩] ["track"] (fun _ => 0)
        (fun _ => true)).created :=
  (C8_mixer_behaviour [⟨"variant1", ".mp4"⟩] ["track"] (fun _ => 0)
    (fun _ => true)).2.2.2 (by simp) 0 ⟨"variant1", ".mp4"⟩ rfl rfl

end BRG
